import Mathlib

/-!
Verification of the MedLite medical-report summarizer
(`summarize.py`, `summarize_simple.py`) against its specification.

Text is embedded as `List Char`.  Python `re` operations on the concrete
patterns the code uses are modelled directly: the character classes `\s`,
`\w`, `\d` are modelled over their ASCII members (every concrete string
appearing in the repository and in the inputs considered here is ASCII),
and `re.IGNORECASE` is modelled by ASCII case folding.
-/

set_option maxRecDepth 10000
set_option maxHeartbeats 4000000

/-- Characters of a Lean string literal, the embedding of a Python `str`. -/
def str (s : String) : List Char := s.data

/-- ASCII members of Python's `str.strip` / regex `\s` whitespace class. -/
def pyIsSpace (c : Char) : Bool :=
  c = ' ' || c = '\t' || c = '\n' || c = '\r' || c = '\x0b' || c = '\x0c'

/-- ASCII members of the regex `\d` class. -/
def pyIsDigit (c : Char) : Bool :=
  ('0' ≤ c && c ≤ '9')

/-- ASCII members of the regex `\w` class (alphanumerics and underscore). -/
def pyIsWord (c : Char) : Bool :=
  ('a' ≤ c && c ≤ 'z') || ('A' ≤ c && c ≤ 'Z') || pyIsDigit c || c = '_'

/-- ASCII lower-casing, the case folding used to model `re.IGNORECASE`. -/
def asciiLower (c : Char) : Char :=
  if 'A' ≤ c && c ≤ 'Z' then Char.ofNat (c.toNat + 32) else c

/-- `s.map asciiLower`, the model of Python `str.lower` on ASCII text. -/
def lowerL (s : List Char) : List Char := s.map asciiLower

/-- `lstartsWithL s p = true` iff `p` is a (case-sensitive) prefix of `s`. -/
def lstartsWithL : List Char → List Char → Bool
  | _, [] => true
  | [], _ :: _ => false
  | c :: cs, p :: ps => (c = p) && lstartsWithL cs ps

/-- `lstartsWithCI s p = true` iff `p` is a prefix of `s` up to ASCII case. -/
def lstartsWithCI : List Char → List Char → Bool
  | _, [] => true
  | [], _ :: _ => false
  | c :: cs, p :: ps => (asciiLower c = asciiLower p) && lstartsWithCI cs ps

/-- `containsSub s p = true` iff `p` occurs in `s` (case-sensitive),
the model of Python `p in s`. -/
def containsSub : List Char → List Char → Bool
  | [], p => p.isEmpty
  | c :: cs, p => lstartsWithL (c :: cs) p || containsSub cs p

/-- `containsCI s p = true` iff `p` occurs in `s` up to ASCII case,
the model of `p in s.lower()` for a lower-case pattern `p`. -/
def containsCI : List Char → List Char → Bool
  | [], p => p.isEmpty
  | c :: cs, p => lstartsWithCI (c :: cs) p || containsCI cs p

/-- Leading whitespace removal (`str.lstrip`). -/
def ltrim (s : List Char) : List Char := s.dropWhile pyIsSpace

/-- Trailing whitespace removal (`str.rstrip`). -/
def rtrim (s : List Char) : List Char := (s.reverse.dropWhile pyIsSpace).reverse

/-- Python `str.strip()`: whitespace removed at both ends. -/
def pyStrip (s : List Char) : List Char := rtrim (ltrim s)

theorem len_dropWhile_le (p : Char → Bool) (l : List Char) :
    (l.dropWhile p).length ≤ l.length :=
  (List.dropWhile_sublist p).length_le

theorem len_takeWhile_le (p : Char → Bool) (l : List Char) :
    (l.takeWhile p).length ≤ l.length :=
  (List.takeWhile_sublist p).length_le

theorem len_drop_le (n : Nat) (l : List Char) : (l.drop n).length ≤ l.length := by
  rw [List.length_drop]
  omega

theorem dropWhile_head_false {p : Char → Bool} {l : List Char} {c : Char}
    {cs : List Char} (h : l.dropWhile p = c :: cs) : p c = false := by
  induction l with
  | nil => simp [List.dropWhile] at h
  | cons a t ih =>
    rw [List.dropWhile] at h
    by_cases hp : p a
    · rw [hp] at h
      simp only at h
      exact ih h
    · rw [Bool.not_eq_true] at hp
      rw [hp] at h
      simp only at h
      cases h
      exact hp

/-- Head of a list is absent or not a whitespace character. -/
def headNotSpace : List Char → Bool
  | [] => true
  | c :: _ => !pyIsSpace c

/-- Scanner for `re.sub(r'\s+', ' ', s)`: `prevSpace` records whether the
previous character belonged to a whitespace run already emitted as a single
space; the first character of each run emits `' '`, the rest emit nothing. -/
def collapseAux : Bool → List Char → List Char
  | _, [] => []
  | prevSpace, c :: cs =>
    if pyIsSpace c then
      if prevSpace then collapseAux true cs else ' ' :: collapseAux true cs
    else c :: collapseAux false cs

/-- `re.sub(r'\s+', ' ', s)`: every maximal whitespace run becomes one space. -/
def collapseWS (s : List Char) : List Char := collapseAux false s

/-- The metadata labels of the header-removal regex in `clean_text`. -/
def metaLabels : List (List Char) :=
  [str ("Patient Name"), str ("DOB"), str ("Date"),
   str ("Report"), str ("Physician"), str ("Doctor")]

/-- A line opens with one of the metadata labels, case-insensitively. -/
def isMetaLine (line : List Char) : Bool :=
  metaLabels.any (fun lab => lstartsWithCI line lab)

/-- `re.sub(r'^(Patient Name|DOB|Date|Report|Physician|Doctor).*?\n', '', s,
flags=re.MULTILINE | re.IGNORECASE)`.  A match is a whole line that opens
with a label: the label, the rest of the line (`.` matches no newline,
lazily up to the first one) and the terminating `'\n'` itself.  A final
segment without a terminating newline can never be matched. -/
def metaAux : Nat → List Char → List Char
  | 0, s => s
  | fuel + 1, s =>
    match s.dropWhile (fun c => !(c = '\n')) with
    | [] => s
    | _ :: tail =>
      let line := s.takeWhile (fun c => !(c = '\n'))
      if isMetaLine line then metaAux fuel tail
      else line ++ '\n' :: metaAux fuel tail

/-- The wrapper: each scanning step consumes at least one line and its
newline, so a fuel of `s.length` never runs out. -/
def removeMetaLines (s : List Char) : List Char := metaAux s.length s

/-- A character kept by `re.sub(r'[^\w\s.,!?;:-]', '', s)`. -/
def keepChar (c : Char) : Bool :=
  pyIsWord c || pyIsSpace c ||
    c = '.' || c = ',' || c = '!' || c = '?' || c = ';' || c = ':' || c = '-'

/-- `re.sub(r'[^\w\s.,!?;:-]', '', s)`: drop every other character. -/
def punctFilter (s : List Char) : List Char := s.filter keepChar

/-- Head of a list is a `\w` character. -/
def headIsWord : List Char → Bool
  | [] => false
  | c :: _ => pyIsWord c

/-- `re.sub(r'\b\d{6,}\b', '', s)`: a maximal digit run of length at least 6
whose neighbours on both sides (if any) are non-word characters is removed.
`prevWord` records whether the previously scanned character was a `\w`
character (initially there is none). -/
def rldAux : Nat → Bool → List Char → List Char
  | _, _, [] => []
  | 0, _, s => s
  | fuel + 1, prevWord, c :: cs =>
    if pyIsDigit c && !prevWord then
      let run := c :: cs.takeWhile pyIsDigit
      let rest := cs.dropWhile pyIsDigit
      if 6 ≤ run.length && !headIsWord rest then rldAux fuel true rest
      else run ++ rldAux fuel true rest
    else c :: rldAux fuel (pyIsWord c) cs

/-- The full id-code removal pass.  Each scanning step consumes at least one
character, so a fuel of `s.length` never runs out. -/
def removeLongDigits (s : List Char) : List Char := rldAux s.length false s

/-- `re.sub` of a non-empty literal pattern `pat` (under `re.IGNORECASE`)
by the literal replacement `rep`: leftmost non-overlapping matches, scanning
resumes after each replacement. -/
def replaceAux (pat rep : List Char) : Nat → List Char → List Char
  | _, [] => []
  | 0, s => s
  | fuel + 1, c :: cs =>
    if !pat.isEmpty && lstartsWithCI (c :: cs) pat then
      rep ++ replaceAux pat rep fuel (cs.drop (pat.length - 1))
    else c :: replaceAux pat rep fuel cs

/-- The wrapper: each step consumes at least one character, so a fuel of
`s.length` never runs out. -/
def replaceCI (pat rep : List Char) (s : List Char) : List Char :=
  replaceAux pat rep s.length s

/-- A sentence terminator for the patterns `[^.!?]` and `re.split(r'[.!?]+')`. -/
def isTerm (c : Char) : Bool := c = '.' || c = '!' || c = '?'

/-- `re.split(r'[.!?]+', s)`: segments between maximal terminator runs,
including empty segments at the ends exactly as `re.split` produces them. -/
def splitTermsAux : Nat → List Char → List (List Char)
  | 0, s => [s]
  | fuel + 1, s =>
    match s.dropWhile (fun c => !isTerm c) with
    | [] => [s]
    | _ :: tail =>
      s.takeWhile (fun c => !isTerm c) :: splitTermsAux fuel (tail.dropWhile isTerm)

/-- The wrapper: each step consumes a segment and at least one terminator,
so a fuel of `s.length` never runs out. -/
def splitTerms (s : List Char) : List (List Char) := splitTermsAux s.length s

/-- A cue-separator character for the `[:\s]+` part of the finding patterns. -/
def isCueSep (c : Char) : Bool := c = ':' || pyIsSpace c

/-- The continuation `[:\s]+([^.!?]+)` after a matched cue word, with the
backtracking `re` performs: the greedy separator run may hand one character
back to the (non-empty) capture group when the run is followed directly by a
sentence terminator or the end of the text.  Returns the captured group and
the text after the whole match, or `none` when the continuation fails. -/
def cueContinuation (t : List Char) : Option (List Char × List Char) :=
  let run := t.takeWhile isCueSep
  let after := t.drop run.length
  if run.isEmpty then none
  else
    let cap := after.takeWhile (fun c => !isTerm c)
    if !cap.isEmpty then some (cap, after.drop cap.length)
    else
      match run.reverse with
      | [] => none
      | last :: more => if more.isEmpty then none else some ([last], after)

theorem cueContinuation_shrinks {t cap rest : List Char}
    (h : cueContinuation t = some (cap, rest)) : rest.length < t.length := by
  unfold cueContinuation at h
  simp only at h
  split at h
  · exact absurd h (by simp)
  · rename_i hrun
    have hrunlen : 1 ≤ (t.takeWhile isCueSep).length := by
      cases hr : t.takeWhile isCueSep with
      | nil => rw [hr] at hrun; simp at hrun
      | cons a b => simp [hr]
    have htake : (t.takeWhile isCueSep).length ≤ t.length :=
      len_takeWhile_le _ _
    have hafter : (t.drop (t.takeWhile isCueSep).length).length
        = t.length - (t.takeWhile isCueSep).length := List.length_drop _ _
    split at h
    · simp only [Option.some.injEq, Prod.mk.injEq] at h
      obtain ⟨-, h2⟩ := h
      subst h2
      have := len_drop_le
        ((t.drop (t.takeWhile isCueSep).length).takeWhile (fun c => !isTerm c)).length
        (t.drop (t.takeWhile isCueSep).length)
      omega
    · split at h
      · exact absurd h (by simp)
      · split at h
        · exact absurd h (by simp)
        · simp only [Option.some.injEq, Prod.mk.injEq] at h
          obtain ⟨-, h2⟩ := h
          subst h2
          omega

/-- Try, at the current position, each cue alternative in the priority order
of the regex alternation (including the backtracking into shorter `s?`
variants), returning the first whose continuation succeeds. -/
def tryCues (cues : List (List Char)) (s : List Char) :
    Option (List Char × List Char) :=
  match cues with
  | [] => none
  | cue :: rest =>
    if lstartsWithCI s cue then
      match cueContinuation (s.drop cue.length) with
      | some r => some r
      | none => tryCues rest s
    else tryCues rest s

theorem tryCues_shrinks {cues : List (List Char)} {s cap rest : List Char}
    (h : tryCues cues s = some (cap, rest)) : rest.length < s.length := by
  induction cues with
  | nil => simp [tryCues] at h
  | cons cue cs ih =>
    rw [tryCues] at h
    split at h
    · split at h
      · rename_i r hr
        obtain ⟨rcap, rrest⟩ := r
        cases h
        have h1 := cueContinuation_shrinks hr
        have h2 : (s.drop cue.length).length ≤ s.length := len_drop_le _ _
        omega
      · exact ih h
    · exact ih h

/-- `re.findall` for a pattern `(?:cue1|cue2|…)[:\s]+([^.!?]+)` under
`re.IGNORECASE`: scan left to right, emit each capture, resume after the
match. -/
def findallAux (cues : List (List Char)) : Nat → List Char → List (List Char)
  | _, [] => []
  | 0, _ => []
  | fuel + 1, c :: cs =>
    match tryCues cues (c :: cs) with
    | some (cap, rest) => cap :: findallAux cues fuel rest
    | none => findallAux cues fuel cs

/-- The wrapper: every match consumes at least one character
(`tryCues_shrinks`), so a fuel of `s.length` never runs out. -/
def findallCue (cues : List (List Char)) (s : List Char) : List (List Char) :=
  findallAux cues s.length s

/-- `re.search` for the same shape of pattern: the first capture, if any. -/
def searchCue (cues : List (List Char)) : List Char → Option (List Char)
  | [] => none
  | c :: cs =>
    match tryCues cues (c :: cs) with
    | some (cap, _) => some cap
    | none => searchCue cues cs

/-- `'; '.join`-style intercalation. -/
def joinSep (sep : List Char) : List (List Char) → List Char
  | [] => []
  | [x] => x
  | x :: y :: rest => x ++ sep ++ joinSep sep (y :: rest)

/-- The result record of `summarize_report`: fields `summary`,
`patient_friendly` (`patientFriendly`) and `key_findings` (`keyFindings`). -/
structure SummaryResult where
  summary : List Char
  patient_friendly : List Char
  key_findings : List (List Char)
deriving DecidableEq, Repr

/-- The too-short placeholder result, with the identical literal strings both
`summarize.py` and `summarize_simple.py` return on the short-circuit path. -/
def placeholderResult : SummaryResult where
  summary := str ("The report is too short to generate a meaningful summary.")
  patient_friendly := str ("Please provide a longer medical report for analysis.")
  key_findings := [str ("Report length insufficient for analysis")]

/-- Translation pass of `translate_medical_jargon`: the table's substitutions
applied in table (insertion) order. -/
def translateWith (table : List (List Char × List Char)) (text : List Char) :
    List Char :=
  table.foldl (fun t e => replaceCI e.1 e.2 t) text

/-- ASCII code of the apostrophe character appearing in two table keys. -/
def apos : Char := Char.ofNat 39

/-! ## `summarize_simple.py` (`SimpleMedicalReportSummarizer`) -/

namespace MedSimple

/-- `self.medical_terms` of `SimpleMedicalReportSummarizer.__init__`,
in insertion order. -/
def medical_terms : List (List Char × List Char) :=
  [ (str ("myocardial infarction"), str ("heart attack")),
    (str ("coronary artery disease"), str ("heart disease")),
    (str ("hypertension"), str ("high blood pressure")),
    (str ("hypotension"), str ("low blood pressure")),
    (str ("tachycardia"), str ("fast heart rate")),
    (str ("bradycardia"), str ("slow heart rate")),
    (str ("arrhythmia"), str ("irregular heartbeat")),
    (str ("angina"), str ("chest pain")),
    (str ("atherosclerosis"), str ("hardening of arteries")),
    (str ("cardiomyopathy"), str ("heart muscle disease")),
    (str ("pneumonia"), str ("lung infection")),
    (str ("bronchitis"), str ("inflammation of airways")),
    (str ("asthma"), str ("breathing condition")),
    (str ("COPD"), str ("chronic lung disease")),
    (str ("dyspnea"), str ("shortness of breath")),
    (str ("tachypnea"), str ("rapid breathing")),
    (str ("hypoxia"), str ("low oxygen levels")),
    (str ("pulmonary edema"), str ("fluid in lungs")),
    (str ("gastroenteritis"), str ("stomach flu")),
    (str ("hepatitis"), str ("liver inflammation")),
    (str ("cirrhosis"), str ("liver scarring")),
    (str ("cholecystitis"), str ("gallbladder inflammation")),
    (str ("pancreatitis"), str ("pancreas inflammation")),
    (str ("gastritis"), str ("stomach inflammation")),
    (str ("ulcer"), str ("sore in stomach/intestine")),
    (str ("GERD"), str ("acid reflux")),
    (str ("cerebrovascular accident"), str ("stroke")),
    (str ("transient ischemic attack"), str ("mini-stroke")),
    (str ("migraine"), str ("severe headache")),
    (str ("epilepsy"), str ("seizure disorder")),
    (str ("dementia"), str ("memory loss condition")),
    (str ("Alzheimer") ++ apos :: str ("s disease"), str ("memory disease")),
    (str ("Parkinson") ++ apos :: str ("s disease"), str ("movement disorder")),
    (str ("multiple sclerosis"), str ("nervous system disease")),
    (str ("diabetes mellitus"), str ("diabetes")),
    (str ("hyperglycemia"), str ("high blood sugar")),
    (str ("hypoglycemia"), str ("low blood sugar")),
    (str ("hyperthyroidism"), str ("overactive thyroid")),
    (str ("hypothyroidism"), str ("underactive thyroid")),
    (str ("diabetic ketoacidosis"), str ("diabetes complication")),
    (str ("acute kidney injury"), str ("sudden kidney damage")),
    (str ("chronic kidney disease"), str ("long-term kidney disease")),
    (str ("nephritis"), str ("kidney inflammation")),
    (str ("renal failure"), str ("kidney failure")),
    (str ("dialysis"), str ("kidney treatment")),
    (str ("anemia"), str ("low red blood cells")),
    (str ("leukemia"), str ("blood cancer")),
    (str ("thrombosis"), str ("blood clot")),
    (str ("hemorrhage"), str ("bleeding")),
    (str ("coagulopathy"), str ("bleeding disorder")),
    (str ("malignancy"), str ("cancer")),
    (str ("benign"), str ("non-cancerous")),
    (str ("acute"), str ("sudden onset")),
    (str ("chronic"), str ("long-term")),
    (str ("inflammation"), str ("swelling")),
    (str ("infection"), str ("germ invasion")),
    (str ("fracture"), str ("broken bone")),
    (str ("contusion"), str ("bruise")),
    (str ("laceration"), str ("cut")),
    (str ("abrasion"), str ("scrape")),
    (str ("edema"), str ("swelling")),
    (str ("fever"), str ("high temperature")),
    (str ("nausea"), str ("feeling sick")),
    (str ("vomiting"), str ("throwing up")),
    (str ("diarrhea"), str ("loose stools")),
    (str ("constipation"), str ("hard stools")),
    (str ("fatigue"), str ("tiredness")),
    (str ("malaise"), str ("general feeling of illness")) ]

/-- `SimpleMedicalReportSummarizer.clean_text`: whitespace collapse after
`strip`, then the (dead, see `c3`) metadata-line removal, the punctuation
filter, and the long-digit-run removal, in the source's order. -/
def clean_text (text : List Char) : List Char :=
  removeLongDigits (punctFilter (removeMetaLines (collapseWS (pyStrip text))))

/-- `SimpleMedicalReportSummarizer.translate_medical_jargon`. -/
def translate_medical_jargon (text : List Char) : List Char :=
  translateWith medical_terms text

/-- The alternation of the first finding pattern
`(?:finding|result|shows?|reveals?|indicates?|demonstrates?)`, expanded in
the order the regex engine tries the alternatives (greedy `s?` first). -/
def cues_narrative : List (List Char) :=
  [str ("finding"), str ("result"), str ("shows"), str ("show"),
   str ("reveals"), str ("reveal"), str ("indicates"), str ("indicate"),
   str ("demonstrates"), str ("demonstrate")]

/-- The alternation of the second finding pattern `(?:diagnosis|impression)`. -/
def cues_diagnostic : List (List Char) :=
  [str ("diagnosis"), str ("impression")]

/-- The alternation of the third finding pattern
`(?:abnormal|normal|positive|negative|elevated|reduced)`. -/
def cues_qualifier : List (List Char) :=
  [str ("abnormal"), str ("normal"), str ("positive"),
   str ("negative"), str ("elevated"), str ("reduced")]

/-- `SimpleMedicalReportSummarizer.extract_key_findings`: the three pattern
families in order, each capture stripped and kept when longer than 10
characters, truncated to the first 5 overall. -/
def extract_key_findings (text : List Char) : List (List Char) :=
  let pick := fun cues =>
    ((findallCue cues text).map pyStrip).filter (fun m => 10 < m.length)
  (pick cues_narrative ++ pick cues_diagnostic ++ pick cues_qualifier).take 5

/-- The qualifier words of the `Key results` pattern in
`create_simple_summary`:  `(?:elevated|low|high|abnormal|positive|negative)`. -/
def summary_qualifiers : List (List Char) :=
  [str ("elevated"), str ("low"), str ("high"),
   str ("abnormal"), str ("positive"), str ("negative")]

/-- `SimpleMedicalReportSummarizer.create_simple_summary`.  The `Key results`
pattern `([^.!?]*(?:…)[^.!?]*)` matches exactly the maximal
terminator-free segments that contain a qualifier word, whole. -/
def create_simple_summary (text : List Char) : List Char :=
  let sections1 :=
    if containsCI text (str ("impression")) then
      match searchCue [str ("impression")] text with
      | some cap => [str ("Main findings: ") ++ pyStrip cap]
      | none => []
    else []
  let sections2 :=
    if containsCI text (str ("diagnosis")) then
      match searchCue [str ("diagnosis")] text with
      | some cap => [str ("Diagnosis: ") ++ pyStrip cap]
      | none => []
    else []
  let abnormal := (splitTerms text).filter
    (fun seg => summary_qualifiers.any (fun q => containsCI seg q))
  let sections3 :=
    if !abnormal.isEmpty then
      [str ("Key results: ") ++ joinSep (str ("; ")) (abnormal.take 3)]
    else []
  let sections := sections1 ++ sections2 ++ sections3
  let sections :=
    if sections.isEmpty then
      (((splitTerms text).take 3).map pyStrip).filter (fun x => 20 < x.length)
    else sections
  joinSep (str (". ")) sections ++ str (".")

/-- The per-call instance state: `__init__` only sets `self.medical_terms`. -/
structure Summarizer where
  medical_terms : List (List Char × List Char)

/-- `SimpleMedicalReportSummarizer()` — a fresh instance. -/
def mkSummarizer : Summarizer := ⟨medical_terms⟩

/-- Method `SimpleMedicalReportSummarizer.summarize_report`.  The `try`
body contains no failing operation in this pure model, so the `except`
branch is unreachable and not modelled. -/
def Summarizer.summarize_report (self : Summarizer) (text : List Char) :
    SummaryResult :=
  let cleaned := clean_text text
  if cleaned.length < 50 then placeholderResult
  else
    let raw := create_simple_summary cleaned
    { summary := raw
      patient_friendly := translateWith self.medical_terms raw
      key_findings :=
        (extract_key_findings cleaned).map (translateWith self.medical_terms) }

/-- Module-level `summarize_report` of `summarize_simple.py`: builds a
fresh `SimpleMedicalReportSummarizer` and delegates to its method. -/
def summarize_report (text : List Char) : SummaryResult :=
  mkSummarizer.summarize_report text

end MedSimple

/-! ## `summarize.py` (`MedicalReportSummarizer`) -/

namespace MedAI

/-- `self.medical_terms` of `MedicalReportSummarizer.__init__` — the same
table, duplicated in the source of `summarize.py`. -/
def medical_terms : List (List Char × List Char) :=
  [ (str ("myocardial infarction"), str ("heart attack")),
    (str ("coronary artery disease"), str ("heart disease")),
    (str ("hypertension"), str ("high blood pressure")),
    (str ("hypotension"), str ("low blood pressure")),
    (str ("tachycardia"), str ("fast heart rate")),
    (str ("bradycardia"), str ("slow heart rate")),
    (str ("arrhythmia"), str ("irregular heartbeat")),
    (str ("angina"), str ("chest pain")),
    (str ("atherosclerosis"), str ("hardening of arteries")),
    (str ("cardiomyopathy"), str ("heart muscle disease")),
    (str ("pneumonia"), str ("lung infection")),
    (str ("bronchitis"), str ("inflammation of airways")),
    (str ("asthma"), str ("breathing condition")),
    (str ("COPD"), str ("chronic lung disease")),
    (str ("dyspnea"), str ("shortness of breath")),
    (str ("tachypnea"), str ("rapid breathing")),
    (str ("hypoxia"), str ("low oxygen levels")),
    (str ("pulmonary edema"), str ("fluid in lungs")),
    (str ("gastroenteritis"), str ("stomach flu")),
    (str ("hepatitis"), str ("liver inflammation")),
    (str ("cirrhosis"), str ("liver scarring")),
    (str ("cholecystitis"), str ("gallbladder inflammation")),
    (str ("pancreatitis"), str ("pancreas inflammation")),
    (str ("gastritis"), str ("stomach inflammation")),
    (str ("ulcer"), str ("sore in stomach/intestine")),
    (str ("GERD"), str ("acid reflux")),
    (str ("cerebrovascular accident"), str ("stroke")),
    (str ("transient ischemic attack"), str ("mini-stroke")),
    (str ("migraine"), str ("severe headache")),
    (str ("epilepsy"), str ("seizure disorder")),
    (str ("dementia"), str ("memory loss condition")),
    (str ("Alzheimer") ++ apos :: str ("s disease"), str ("memory disease")),
    (str ("Parkinson") ++ apos :: str ("s disease"), str ("movement disorder")),
    (str ("multiple sclerosis"), str ("nervous system disease")),
    (str ("diabetes mellitus"), str ("diabetes")),
    (str ("hyperglycemia"), str ("high blood sugar")),
    (str ("hypoglycemia"), str ("low blood sugar")),
    (str ("hyperthyroidism"), str ("overactive thyroid")),
    (str ("hypothyroidism"), str ("underactive thyroid")),
    (str ("diabetic ketoacidosis"), str ("diabetes complication")),
    (str ("acute kidney injury"), str ("sudden kidney damage")),
    (str ("chronic kidney disease"), str ("long-term kidney disease")),
    (str ("nephritis"), str ("kidney inflammation")),
    (str ("renal failure"), str ("kidney failure")),
    (str ("dialysis"), str ("kidney treatment")),
    (str ("anemia"), str ("low red blood cells")),
    (str ("leukemia"), str ("blood cancer")),
    (str ("thrombosis"), str ("blood clot")),
    (str ("hemorrhage"), str ("bleeding")),
    (str ("coagulopathy"), str ("bleeding disorder")),
    (str ("malignancy"), str ("cancer")),
    (str ("benign"), str ("non-cancerous")),
    (str ("acute"), str ("sudden onset")),
    (str ("chronic"), str ("long-term")),
    (str ("inflammation"), str ("swelling")),
    (str ("infection"), str ("germ invasion")),
    (str ("fracture"), str ("broken bone")),
    (str ("contusion"), str ("bruise")),
    (str ("laceration"), str ("cut")),
    (str ("abrasion"), str ("scrape")),
    (str ("edema"), str ("swelling")),
    (str ("fever"), str ("high temperature")),
    (str ("nausea"), str ("feeling sick")),
    (str ("vomiting"), str ("throwing up")),
    (str ("diarrhea"), str ("loose stools")),
    (str ("constipation"), str ("hard stools")),
    (str ("fatigue"), str ("tiredness")),
    (str ("malaise"), str ("general feeling of illness")) ]

/-- `MedicalReportSummarizer.clean_text` — the same pipeline, duplicated in
`summarize.py`. -/
def clean_text (text : List Char) : List Char :=
  removeLongDigits (punctFilter (removeMetaLines (collapseWS (pyStrip text))))

/-- `MedicalReportSummarizer.translate_medical_jargon`. -/
def translate_medical_jargon (text : List Char) : List Char :=
  translateWith medical_terms text

/-- First finding-pattern alternation of `summarize.py`, expanded. -/
def cues_narrative : List (List Char) :=
  [str ("finding"), str ("result"), str ("shows"), str ("show"),
   str ("reveals"), str ("reveal"), str ("indicates"), str ("indicate"),
   str ("demonstrates"), str ("demonstrate")]

/-- Second finding-pattern alternation of `summarize.py`. -/
def cues_diagnostic : List (List Char) :=
  [str ("diagnosis"), str ("impression")]

/-- Third finding-pattern alternation of `summarize.py`. -/
def cues_qualifier : List (List Char) :=
  [str ("abnormal"), str ("normal"), str ("positive"),
   str ("negative"), str ("elevated"), str ("reduced")]

/-- `MedicalReportSummarizer.extract_key_findings`. -/
def extract_key_findings (text : List Char) : List (List Char) :=
  let pick := fun cues =>
    ((findallCue cues text).map pyStrip).filter (fun m => 10 < m.length)
  (pick cues_narrative ++ pick cues_diagnostic ++ pick cues_qualifier).take 5

/-- Truncation of over-long cleaned text before the model call:
`cleaned_text[:1000] + "..."` when longer than 1000 characters. -/
def genInput (cleaned : List Char) : List Char :=
  if 1000 < cleaned.length then cleaned.take 1000 ++ str ("...") else cleaned

/-- The `except` branch of `MedicalReportSummarizer.summarize_report`:
`summary = f"Error generating summary: {str(e)}"` and the two fixed texts. -/
def errorResult (e : List Char) : SummaryResult where
  summary := str ("Error generating summary: ") ++ e
  patient_friendly := str ("Unable to process the medical report. Please try again.")
  key_findings := [str ("Processing error occurred")]

/-- `MedicalReportSummarizer.summarize_report`.  The external
sequence-to-sequence backend (`self.summarizer`, a Hugging Face pipeline)
is outside the repository; it is abstracted as a parameter `gen` producing
either the generated summary text or the exception the `except` branch
catches.  Every in-repository step is embedded concretely. -/
def summarize_report (gen : List Char → Except (List Char) (List Char))
    (text : List Char) : SummaryResult :=
  let cleaned := clean_text text
  if cleaned.length < 100 then placeholderResult
  else
    match gen (genInput cleaned) with
    | Except.error e => errorResult e
    | Except.ok raw =>
      { summary := raw
        patient_friendly := translate_medical_jargon raw
        key_findings := (extract_key_findings cleaned).map translate_medical_jargon }

end MedAI

/-! ## Concrete inputs used by the claim theorems -/

/-- The chest-X-ray sample report of `summarize_simple.py` (`sample_text`,
whitespace-faithful transcription of the triple-quoted literal). -/
def sampleReport : List Char :=
  str ("\n    PATIENT: John Doe\n    DOB: 01/01/1980\n    DATE: 12/15/2023\n    \n    CHEST X-RAY REPORT\n    \n    CLINICAL HISTORY: Patient presents with acute onset of dyspnea and chest pain.\n    \n    FINDINGS:\n    The chest X-ray demonstrates bilateral lower lobe consolidation consistent with pneumonia.\n    The cardiac silhouette is within normal limits. No evidence of pneumothorax or pleural effusion.\n    The bony structures are unremarkable.\n    \n    IMPRESSION:\n    1. Bilateral lower lobe pneumonia\n    2. No acute cardiopulmonary abnormalities\n    3. Recommend follow-up chest X-ray in 2 weeks\n    \n    Dr. Smith, Radiologist\n    ")

/-- A report whose metadata line survives `clean_text` (claim C3). -/
def exMetaLine : List Char :=
  str ("Patient Name: John Doe\nHe complains of severe headaches and blurry vision for two weeks.")

/-- An input on which `clean_text` is not idempotent (claim C4): removing
`$` leaves a double space that a second cleaning pass collapses. -/
def exDollar : List Char := str ("a $ b")

/-- An input whose extracted finding loses length under translation
(claim C5): "diabetes mellitus a" becomes "diabetes a", 10 characters. -/
def exShrink : List Char :=
  str ("shows: diabetes mellitus a. zzzz zzzz zzzz zzzz zzzz")

/-- An input on which a later table entry recreates the phrase
"myocardial infarction" (claim C6): the entry benign → non-cancerous
appends the missing n. -/
def exRecreate : List Char :=
  str ("x myocardial infarction y myocardial infarctiobenign z")

/-- Input where a later table entry (`diarrhea -> loose stools`) consumes
the leading letters of the `heart attack` inserted by the first entry. -/
def exDestroy : List Char :=
  str ("qdiarrmyocardial infarctionq")

/-! ## Bridges between the scanning booleans and list decompositions -/

theorem lowerL_append (x y : List Char) :
    lowerL (x ++ y) = lowerL x ++ lowerL y := by
  simp [lowerL]

theorem lowerL_nil_iff (p : List Char) : lowerL p = [] ↔ p = [] := by
  simp [lowerL]

theorem lstartsWithL_iff (s p : List Char) :
    lstartsWithL s p = true ↔ ∃ g, s = p ++ g := by
  induction p generalizing s with
  | nil => simp [lstartsWithL]
  | cons q ps ih =>
    cases s with
    | nil => simp [lstartsWithL]
    | cons c cs =>
      rw [lstartsWithL]
      simp only [Bool.and_eq_true, decide_eq_true_eq, ih]
      constructor
      · rintro ⟨rfl, g, rfl⟩
        exact ⟨g, rfl⟩
      · rintro ⟨g, h⟩
        cases h
        exact ⟨rfl, g, rfl⟩

theorem lstartsWithCI_iff (s p : List Char) :
    lstartsWithCI s p = true ↔ ∃ g, lowerL s = lowerL p ++ g := by
  induction p generalizing s with
  | nil => simp [lstartsWithCI, lowerL]
  | cons q ps ih =>
    cases s with
    | nil => simp [lstartsWithCI, lowerL]
    | cons c cs =>
      rw [lstartsWithCI]
      simp only [Bool.and_eq_true, decide_eq_true_eq, ih, lowerL, List.map_cons,
        List.cons_append, List.cons.injEq]
      constructor
      · rintro ⟨h1, g, h2⟩
        exact ⟨g, h1, h2⟩
      · rintro ⟨g, h1, h2⟩
        exact ⟨h1, g, h2⟩

theorem containsSub_iff (s p : List Char) :
    containsSub s p = true ↔ ∃ a b, s = a ++ p ++ b := by
  induction s with
  | nil =>
    simp only [containsSub, List.isEmpty_iff]
    constructor
    · rintro rfl
      exact ⟨[], [], rfl⟩
    · rintro ⟨a, b, h⟩
      have h' := h.symm
      simp only [List.append_eq_nil] at h'
      exact h'.1.2
  | cons c cs ih =>
    rw [containsSub]
    simp only [Bool.or_eq_true, lstartsWithL_iff, ih]
    constructor
    · rintro (⟨g, h⟩ | ⟨a, b, h⟩)
      · exact ⟨[], g, by simp [h]⟩
      · exact ⟨c :: a, b, by simp [h]⟩
    · rintro ⟨a, b, h⟩
      cases a with
      | nil =>
        left
        exact ⟨b, by simpa using h⟩
      | cons a0 as =>
        right
        simp only [List.cons_append, List.cons.injEq] at h
        exact ⟨as, b, h.2⟩

theorem containsCI_iff (s p : List Char) :
    containsCI s p = true ↔ ∃ a b, lowerL s = a ++ lowerL p ++ b := by
  induction s with
  | nil =>
    simp only [containsCI, List.isEmpty_iff]
    constructor
    · rintro rfl
      exact ⟨[], [], by simp [lowerL]⟩
    · rintro ⟨a, b, h⟩
      simp only [lowerL, List.map_nil] at h
      have h' := h.symm
      simp only [List.append_eq_nil] at h'
      exact (lowerL_nil_iff p).mp (by simpa [lowerL] using h'.1.2)
  | cons c cs ih =>
    rw [containsCI]
    simp only [Bool.or_eq_true, lstartsWithCI_iff, ih]
    constructor
    · rintro (⟨g, h⟩ | ⟨a, b, h⟩)
      · exact ⟨[], g, by simpa using h⟩
      · refine ⟨asciiLower c :: a, b, ?_⟩
        simp only [lowerL] at h ⊢
        simp [h]
    · rintro ⟨a, b, h⟩
      cases a with
      | nil =>
        left
        exact ⟨b, by simpa using h⟩
      | cons a0 as =>
        right
        simp only [lowerL, List.map_cons, List.cons_append, List.cons.injEq] at h
        exact ⟨as, b, h.2⟩

/-! ## Whitespace normalization lemmas -/

theorem getLast?_mem_list {l : List Char} {d : Char} (h : l.getLast? = some d) :
    d ∈ l := by
  induction l with
  | nil => simp at h
  | cons a t ih =>
    cases t with
    | nil =>
      simp only [List.getLast?_singleton, Option.some.injEq] at h
      simp [h]
    | cons b u =>
      rw [List.getLast?_cons_cons] at h
      exact List.mem_cons_of_mem a (ih h)

theorem getLast?_cons_ne_nil {a : Char} {l : List Char} (h : l ≠ []) :
    (a :: l).getLast? = l.getLast? := by
  cases l with
  | nil => exact absurd rfl h
  | cons b u => exact List.getLast?_cons_cons

theorem getLast?_some_ne_nil {l : List Char} {d : Char}
    (h : l.getLast? = some d) : l ≠ [] := by
  intro hl
  rw [hl] at h
  simp at h

theorem collapseAux_cons_not_space {b : Bool} {c : Char} {cs : List Char}
    (h : pyIsSpace c = false) :
    collapseAux b (c :: cs) = c :: collapseAux false cs := by
  simp [collapseAux, h]

theorem collapse_cons_not_space {c : Char} {cs : List Char}
    (h : pyIsSpace c = false) : collapseWS (c :: cs) = c :: collapseWS cs := by
  rw [collapseWS, collapseAux_cons_not_space h, collapseWS]

theorem collapse_eq_nil_iff (l : List Char) : collapseWS l = [] ↔ l = [] := by
  cases l with
  | nil => simp [collapseWS, collapseAux]
  | cons c cs =>
    rw [collapseWS, collapseAux]
    constructor
    · intro h
      split at h <;> simp_all
    · intro h
      simp at h

theorem collapseAux_mem {l : List Char} :
    ∀ {b c}, c ∈ collapseAux b l → c = ' ' ∨ c ∈ l := by
  induction l with
  | nil => intro b c h; simp [collapseAux] at h
  | cons d ds ih =>
    intro b c h
    rw [collapseAux] at h
    by_cases hd : pyIsSpace d
    · rw [if_pos hd] at h
      cases b with
      | true =>
        rw [if_pos rfl] at h
        rcases ih h with h1 | h1
        · exact Or.inl h1
        · exact Or.inr (List.mem_cons_of_mem d h1)
      | false =>
        rw [if_neg (by simp)] at h
        rcases List.mem_cons.mp h with h1 | h1
        · exact Or.inl h1
        · rcases ih h1 with h2 | h2
          · exact Or.inl h2
          · exact Or.inr (List.mem_cons_of_mem d h2)
    · rw [if_neg hd] at h
      rcases List.mem_cons.mp h with h1 | h1
      · exact Or.inr (h1 ▸ List.mem_cons_self d ds)
      · rcases ih h1 with h2 | h2
        · exact Or.inl h2
        · exact Or.inr (List.mem_cons_of_mem d h2)

theorem collapseAux_space_mem {l : List Char} :
    ∀ {b c}, c ∈ collapseAux b l → pyIsSpace c = true → c = ' ' := by
  induction l with
  | nil => intro b c h _; simp [collapseAux] at h
  | cons d ds ih =>
    intro b c h hs
    rw [collapseAux] at h
    by_cases hd : pyIsSpace d
    · rw [if_pos hd] at h
      cases b with
      | true =>
        rw [if_pos rfl] at h
        exact ih h hs
      | false =>
        rw [if_neg (by simp)] at h
        rcases List.mem_cons.mp h with h1 | h1
        · exact h1
        · exact ih h1 hs
    · rw [if_neg hd] at h
      rcases List.mem_cons.mp h with h1 | h1
      · subst h1
        rw [hs] at hd
        exact absurd rfl hd
      · exact ih h1 hs

theorem no_newline_in_collapse (l : List Char) : '\n' ∉ collapseWS l := by
  intro h
  have := collapseAux_space_mem (l := l) h (by decide)
  simp at this

/-- On whitespace-collapsed text (which contains no newline) the
metadata-line removal regex can never match: it is the identity. -/
theorem removeMetaLines_collapse (m : List Char) :
    removeMetaLines (collapseWS m) = collapseWS m := by
  have hdw : (collapseWS m).dropWhile (fun c => !(c = '\n')) = [] := by
    rw [List.dropWhile_eq_nil_iff]
    intro x hx
    have hne : x ≠ '\n' := fun h => no_newline_in_collapse m (h ▸ hx)
    simp [hne]
  rw [removeMetaLines]
  cases hc : collapseWS m with
  | nil => simp [metaAux]
  | cons c cs =>
    rw [hc] at hdw
    simp only [List.length_cons, metaAux, hdw]

/-- The office of `noDoubleSpace`: all whitespace in the list is a plain
space and no two whitespace characters are adjacent — the shape of
`collapseAux` output, on which `collapseAux` is the identity. -/
def noDoubleSpace : List Char → Bool
  | [] => true
  | c :: cs => (!pyIsSpace c || (c = ' ' && headNotSpace cs)) && noDoubleSpace cs

theorem collapseAux_fix : ∀ (l : List Char) (b : Bool),
    noDoubleSpace l = true → (b = true → headNotSpace l = true) →
    collapseAux b l = l := by
  intro l
  induction l with
  | nil => intro b _ _; rfl
  | cons c cs ih =>
    intro b hinv hb
    rw [noDoubleSpace, Bool.and_eq_true] at hinv
    obtain ⟨hc, hcs⟩ := hinv
    by_cases hsp : pyIsSpace c
    · cases b with
      | true =>
        exfalso
        have := hb rfl
        rw [headNotSpace, hsp] at this
        cases this
      | false =>
        rw [hsp] at hc
        simp only [Bool.not_true, Bool.false_or, Bool.and_eq_true,
          decide_eq_true_eq] at hc
        obtain ⟨hceq, hhead⟩ := hc
        rw [collapseAux, if_pos hsp, if_neg (by simp)]
        rw [ih true hcs (fun _ => hhead), hceq]
    · rw [collapseAux, if_neg hsp, ih false hcs (by simp)]

theorem headNotSpace_collapseAux_true (l : List Char) :
    headNotSpace (collapseAux true l) = true := by
  induction l with
  | nil => rfl
  | cons c cs ih =>
    rw [collapseAux]
    by_cases hsp : pyIsSpace c
    · rw [if_pos hsp]
      exact ih
    · rw [if_neg hsp]
      rw [headNotSpace]
      simp [hsp]

theorem noDoubleSpace_collapseAux (l : List Char) :
    ∀ b, noDoubleSpace (collapseAux b l) = true := by
  induction l with
  | nil => intro b; rfl
  | cons c cs ih =>
    intro b
    rw [collapseAux]
    by_cases hsp : pyIsSpace c
    · rw [if_pos hsp]
      cases b with
      | true => exact ih true
      | false =>
        simp only [noDoubleSpace, Bool.and_eq_true]
        refine ⟨?_, ih true⟩
        simp [headNotSpace_collapseAux_true cs]
    · rw [if_neg hsp]
      simp only [noDoubleSpace, Bool.and_eq_true]
      refine ⟨?_, ih false⟩
      simp [hsp]

theorem collapse_idem (l : List Char) : collapseWS (collapseWS l) = collapseWS l :=
  collapseAux_fix (collapseAux false l) false (noDoubleSpace_collapseAux l false)
    (by simp)

theorem collapse_getLast (m : List Char) :
    ∀ (b : Bool) (d : Char), m.getLast? = some d → pyIsSpace d = false →
      ∃ e, (collapseAux b m).getLast? = some e ∧ pyIsSpace e = false := by
  induction m with
  | nil =>
    intro b d hm
    simp at hm
  | cons c cs ih =>
    intro b d hm hd
    cases cs with
    | nil =>
      have hm' : d = c := by
        simp only [List.getLast?_singleton, Option.some.injEq] at hm
        exact hm.symm
      subst hm'
      exact ⟨d, by rw [collapseAux_cons_not_space hd]; simp [collapseAux], hd⟩
    | cons x xs =>
      rw [List.getLast?_cons_cons] at hm
      by_cases hsp : pyIsSpace c
      · rw [collapseAux, if_pos hsp]
        cases b with
        | true =>
          rw [if_pos rfl]
          exact ih true d hm hd
        | false =>
          rw [if_neg (by simp)]
          obtain ⟨e, he, hes⟩ := ih true d hm hd
          exact ⟨e, by rw [getLast?_cons_ne_nil (getLast?_some_ne_nil he)]; exact he, hes⟩
      · rw [collapseAux, if_neg hsp]
        obtain ⟨e, he, hes⟩ := ih false d hm hd
        exact ⟨e, by rw [getLast?_cons_ne_nil (getLast?_some_ne_nil he)]; exact he, hes⟩

theorem rtrim_append (X : List Char) :
    X = rtrim X ++ (X.reverse.takeWhile pyIsSpace).reverse := by
  calc X = (X.reverse).reverse := (List.reverse_reverse X).symm
    _ = (X.reverse.takeWhile pyIsSpace ++ X.reverse.dropWhile pyIsSpace).reverse := by
        rw [List.takeWhile_append_dropWhile]
    _ = rtrim X ++ (X.reverse.takeWhile pyIsSpace).reverse := by
        rw [List.reverse_append]
        rfl

theorem rtrim_head {X : List Char} {c : Char} {t : List Char}
    (h : rtrim X = c :: t) : X.head? = some c := by
  have hu := rtrim_append X
  rw [h] at hu
  rw [hu]
  rfl

theorem rtrim_getLast_not_space {X : List Char} {c : Char}
    (h : (rtrim X).getLast? = some c) : pyIsSpace c = false := by
  rw [rtrim, List.getLast?_eq_head?_reverse, List.reverse_reverse] at h
  cases hdw : X.reverse.dropWhile pyIsSpace with
  | nil => rw [hdw] at h; simp at h
  | cons d u =>
    rw [hdw] at h
    simp only [List.head?_cons, Option.some.injEq] at h
    exact h ▸ dropWhile_head_false hdw

theorem pyStrip_head_not_space {l : List Char} {c : Char} {t : List Char}
    (h : pyStrip l = c :: t) : pyIsSpace c = false := by
  have h1 : (ltrim l).head? = some c := rtrim_head h
  cases hl : ltrim l with
  | nil => rw [hl] at h1; simp at h1
  | cons d u =>
    rw [hl] at h1
    simp only [List.head?_cons, Option.some.injEq] at h1
    exact h1 ▸ dropWhile_head_false hl

theorem pyStrip_getLast_not_space {l : List Char} {c : Char}
    (h : (pyStrip l).getLast? = some c) : pyIsSpace c = false :=
  rtrim_getLast_not_space h

theorem rtrim_eq_self {X : List Char} {c : Char} (h : X.getLast? = some c)
    (hc : pyIsSpace c = false) : rtrim X = X := by
  rw [List.getLast?_eq_head?_reverse] at h
  rw [rtrim]
  cases hr : X.reverse with
  | nil => rw [hr] at h; simp at h
  | cons d u =>
    rw [hr] at h
    simp only [List.head?_cons, Option.some.injEq] at h
    rw [List.dropWhile_cons_of_neg (by simp [h ▸ hc]), ← hr, List.reverse_reverse]

/-- The whitespace-normalized core `collapseWS (pyStrip l)` is a fixpoint
of `pyStrip`. -/
theorem strip_collapse_strip (l : List Char) :
    pyStrip (collapseWS (pyStrip l)) = collapseWS (pyStrip l) := by
  cases hs : pyStrip l with
  | nil => simp [collapseWS, collapseAux, pyStrip, ltrim, rtrim]
  | cons c cs =>
    have hc : pyIsSpace c = false := pyStrip_head_not_space hs
    have hcol : collapseWS (c :: cs) = c :: collapseWS cs :=
      collapse_cons_not_space hc
    have hlt : ltrim (collapseWS (c :: cs)) = collapseWS (c :: cs) := by
      rw [hcol, ltrim, List.dropWhile_cons_of_neg (by simp [hc])]
    obtain ⟨d, hd⟩ : ∃ d, (c :: cs).getLast? = some d :=
      Option.isSome_iff_exists.mp (List.getLast?_isSome.mpr (by simp))
    have hd' : (pyStrip l).getLast? = some d := by rw [hs]; exact hd
    have hds : pyIsSpace d = false := pyStrip_getLast_not_space hd'
    obtain ⟨e, he, hes⟩ := collapse_getLast (c :: cs) false d hd hds
    rw [pyStrip, hlt]
    exact rtrim_eq_self he hes

/-- `pyStrip` is idempotent. -/
theorem pyStrip_idem (l : List Char) : pyStrip (pyStrip l) = pyStrip l := by
  cases hs : pyStrip l with
  | nil => simp [pyStrip, ltrim, rtrim]
  | cons c cs =>
    have hc : pyIsSpace c = false := pyStrip_head_not_space hs
    have hlt : ltrim (c :: cs) = c :: cs := by
      rw [ltrim, List.dropWhile_cons_of_neg (by simp [hc])]
    obtain ⟨d, hd⟩ : ∃ d, (c :: cs).getLast? = some d :=
      Option.isSome_iff_exists.mp (List.getLast?_isSome.mpr (by simp))
    have hd' : (pyStrip l).getLast? = some d := by rw [hs]; exact hd
    have hds : pyIsSpace d = false := pyStrip_getLast_not_space hd'
    rw [pyStrip, hlt]
    exact rtrim_eq_self hd hds

/-! ## Idempotence of the normalizer (claims C3, C4) -/

theorem clean_fix_core (s : List Char)
    (hfil : punctFilter (collapseWS (pyStrip s)) = collapseWS (pyStrip s))
    (hrld : removeLongDigits (collapseWS (pyStrip s)) = collapseWS (pyStrip s)) :
    MedSimple.clean_text s = collapseWS (pyStrip s) ∧
    MedSimple.clean_text (collapseWS (pyStrip s)) = collapseWS (pyStrip s) := by
  have h1 : MedSimple.clean_text s = collapseWS (pyStrip s) := by
    rw [MedSimple.clean_text, removeMetaLines_collapse, hfil, hrld]
  refine ⟨h1, ?_⟩
  rw [MedSimple.clean_text, strip_collapse_strip, collapse_idem,
    removeMetaLines_collapse, hfil, hrld]

/-- Claim C3: the specification says the normalizer removes metadata lines,
and the code plainly intends to (its regex and comment say so), but the
whitespace collapse runs first and replaces every newline by a space, and
the header regex can only match a line that still ends in a literal
newline — so it never matches anything.  On the failing input the
"Patient Name" line survives `clean_text` of both modules in full. -/
theorem c3_metadata_removal_is_dead_code :
    (∀ s, removeMetaLines (collapseWS (pyStrip s)) = collapseWS (pyStrip s)) ∧
    containsSub (MedSimple.clean_text exMetaLine)
      (str ("Patient Name: John Doe")) = true ∧
    containsSub (MedAI.clean_text exMetaLine)
      (str ("Patient Name: John Doe")) = true := by
  refine ⟨fun s => removeMetaLines_collapse (pyStrip s), by decide, by decide⟩

/-- Claim C4 counterexample: `clean_text` is not idempotent.  Cleaning
`"a $ b"` removes the dollar sign and leaves a double space, which a second
pass collapses. -/
theorem c4_counterexample :
    MedSimple.clean_text (MedSimple.clean_text exDollar)
      ≠ MedSimple.clean_text exDollar := by
  decide

/-- Claim C4 (amended): the normalizer is idempotent on every input where
the punctuation filter and the id-code removal leave the
whitespace-normalized text unchanged (a sufficient condition, not a
characterization); on general input idempotence fails (see the
counterexample). -/
theorem c4_clean_text_conditionally_idempotent :
    ∀ s, punctFilter (collapseWS (pyStrip s)) = collapseWS (pyStrip s) →
      removeLongDigits (collapseWS (pyStrip s)) = collapseWS (pyStrip s) →
      MedSimple.clean_text (MedSimple.clean_text s) = MedSimple.clean_text s ∧
      MedAI.clean_text (MedAI.clean_text s) = MedAI.clean_text s := by
  intro s hf hr
  obtain ⟨h1, h2⟩ := clean_fix_core s hf hr
  have hsame : MedAI.clean_text = MedSimple.clean_text := rfl
  constructor
  · rw [h1]
    exact h2
  · rw [hsame, h1]
    exact h2

/-- Witness for the amended C4 at a concrete input satisfying both
hypotheses. -/
theorem c4_witness :
    MedSimple.clean_text
        (MedSimple.clean_text (str ("the patient shows marked improvement")))
      = MedSimple.clean_text (str ("the patient shows marked improvement")) :=
  (c4_clean_text_conditionally_idempotent
    (str ("the patient shows marked improvement")) (by decide) (by decide)).1

/-! ## Extensional equality of the two tiers (claim C9) -/

/-- Claim C9: `clean_text`, `translate_medical_jargon` and
`extract_key_findings` of `summarize.py` and `summarize_simple.py` are
extensionally equal — the two modules duplicate the same terminology table
and the same regular expressions. -/
theorem c9_tiers_extensionally_equal :
    ∀ s, MedAI.clean_text s = MedSimple.clean_text s ∧
      MedAI.translate_medical_jargon s = MedSimple.translate_medical_jargon s ∧
      MedAI.extract_key_findings s = MedSimple.extract_key_findings s := by
  intro s
  exact ⟨rfl, rfl, rfl⟩

/-! ## Determinism of the rule-based pipeline (claim C10) -/

/-- Claim C10: the module-level `summarize_report` of the rule-based tier is
deterministic — on equal inputs two invocations agree, each invocation
builds a fresh `SimpleMedicalReportSummarizer`, and any instance whose state
equals the freshly constructed one produces the module-level answer. -/
theorem c10_rule_based_deterministic :
    ∀ (t1 t2 : List Char) (i1 i2 : MedSimple.Summarizer),
      t1 = t2 → i1 = MedSimple.mkSummarizer → i2 = MedSimple.mkSummarizer →
      i1.summarize_report t1 = i2.summarize_report t2 ∧
      MedSimple.summarize_report t1 = i1.summarize_report t1 := by
  rintro t1 t2 i1 i2 rfl rfl rfl
  exact ⟨rfl, rfl⟩

/-- Witness for C10 at a concrete report text. -/
theorem c10_witness :
    MedSimple.mkSummarizer.summarize_report (str ("impression: all clear"))
        = MedSimple.mkSummarizer.summarize_report (str ("impression: all clear")) ∧
      MedSimple.summarize_report (str ("impression: all clear"))
        = MedSimple.mkSummarizer.summarize_report (str ("impression: all clear")) :=
  c10_rule_based_deterministic (str ("impression: all clear"))
    (str ("impression: all clear")) MedSimple.mkSummarizer MedSimple.mkSummarizer
    rfl rfl rfl

/-! ## Totality and shape of the rule-based summarizer (claim C8) -/

/-- Claim C8: `create_simple_summary` never fails and for every input
returns a non-empty string: the produced segments joined with ". " and
terminated with a period. -/
theorem c8_rule_based_summary_nonempty :
    ∀ s, ∃ segs : List (List Char),
      MedSimple.create_simple_summary s = joinSep (str (". ")) segs ++ str (".") ∧
      MedSimple.create_simple_summary s ≠ [] ∧
      (MedSimple.create_simple_summary s).getLast? = some '.' := by
  intro s
  obtain ⟨segs, hsegs⟩ : ∃ segs, MedSimple.create_simple_summary s
      = joinSep (str (". ")) segs ++ str (".") := ⟨_, rfl⟩
  have hlast : (MedSimple.create_simple_summary s).getLast? = some '.' := by
    rw [hsegs, List.getLast?_append]
    rfl
  exact ⟨segs, hsegs, getLast?_some_ne_nil hlast, hlast⟩

/-! ## Short-circuit thresholds (claim C1) -/

theorem pyStrip_nil : pyStrip [] = [] := rfl

theorem strip_filter_mem {L : List (List Char)} {f : List Char}
    (h : f ∈ (L.map pyStrip).filter (fun m => 10 < m.length)) :
    10 < (pyStrip f).length := by
  obtain ⟨hmem, hlen⟩ := List.mem_filter.mp h
  obtain ⟨m, -, rfl⟩ := List.mem_map.mp hmem
  rw [pyStrip_idem]
  simpa using hlen

/-- Every element the finding extractor returns was stripped and passed the
strict 10-character filter. -/
theorem extract_mem_gt10 {s f : List Char}
    (h : f ∈ MedSimple.extract_key_findings s) : 10 < (pyStrip f).length := by
  simp only [MedSimple.extract_key_findings] at h
  have h' := List.mem_of_mem_take h
  rcases List.mem_append.mp h' with h1 | h3
  · rcases List.mem_append.mp h1 with h1a | h1b
    · exact strip_filter_mem h1a
    · exact strip_filter_mem h1b
  · exact strip_filter_mem h3

theorem extract_mem_ne_nil {s f : List Char}
    (h : f ∈ MedSimple.extract_key_findings s) : f ≠ [] := by
  intro hf
  have := extract_mem_gt10 h
  rw [hf, pyStrip_nil] at this
  simp at this

/-- Claim C5 counterexample: on `exShrink` the single key finding, as
returned to the caller (after translation), is `"diabetes a"`, whose
trimmed length is 10, not strictly greater than 10 — translation shrank
the finding "diabetes mellitus a" below the bound. -/
theorem c5_counterexample :
    (MedSimple.summarize_report exShrink).key_findings = [str ("diabetes a")] ∧
    ¬ (10 < (pyStrip (str ("diabetes a"))).length) := by
  constructor
  · decide
  · decide

/-- Claim C5 (amended): `keyFindings` always has length at most 5, and every
finding has trimmed length strictly greater than 10 as it leaves the
extractor, before terminology translation; the translation step applied
afterwards can shrink an element to 10 characters or fewer (see the
counterexample). -/
theorem c5_keyfindings_bounds_amended :
    ∀ s, (MedSimple.summarize_report s).key_findings.length ≤ 5 ∧
      ∀ f ∈ MedSimple.extract_key_findings (MedSimple.clean_text s),
        10 < (pyStrip f).length := by
  intro s
  constructor
  · simp only [MedSimple.summarize_report, MedSimple.Summarizer.summarize_report]
    split
    · simp [placeholderResult]
    · simp only [List.length_map, MedSimple.extract_key_findings]
      exact List.length_take_le 5 _
  · intro f hf
    exact extract_mem_gt10 hf

/-- Witness for the amended C5 at the counterexample input: the bound holds,
and the untranslated finding "diabetes mellitus a" is longer than 10. -/
theorem c5_witness :
    (MedSimple.summarize_report exShrink).key_findings.length ≤ 5 ∧
    10 < (pyStrip (str ("diabetes mellitus a"))).length :=
  ⟨(c5_keyfindings_bounds_amended exShrink).1,
   (c5_keyfindings_bounds_amended exShrink).2
     (str ("diabetes mellitus a")) (by decide)⟩

/-! ## No exception crosses the pipeline boundary (claim C2) -/

theorem replaceCI_ne_nil {pat rep s : List Char} (hs : s ≠ []) (hr : rep ≠ []) :
    replaceCI pat rep s ≠ [] := by
  cases s with
  | nil => exact absurd rfl hs
  | cons c cs =>
    simp only [replaceCI, List.length_cons]
    rw [replaceAux]
    split
    · intro h
      rw [List.append_eq_nil] at h
      exact hr h.1
    · simp

theorem translateWith_ne_nil :
    ∀ (table : List (List Char × List Char)) (s : List Char), s ≠ [] →
      (∀ p ∈ table, p.2 ≠ []) → translateWith table s ≠ [] := by
  intro table
  induction table with
  | nil =>
    intro s hs _
    simpa [translateWith] using hs
  | cons e es ih =>
    intro s hs hv
    simp only [translateWith, List.foldl_cons]
    exact ih (replaceCI e.1 e.2 s)
      (replaceCI_ne_nil hs (hv e (List.mem_cons_self e es)))
      (fun p hp => hv p (List.mem_cons_of_mem e hp))

theorem medical_terms_values_ne_nil :
    ∀ p ∈ MedSimple.medical_terms, p.2 ≠ [] := by decide

theorem create_simple_summary_last (t : List Char) :
    (MedSimple.create_simple_summary t).getLast? = some '.' := by
  obtain ⟨segs, hsegs⟩ : ∃ segs, MedSimple.create_simple_summary t
      = joinSep (str (". ")) segs ++ str (".") := ⟨_, rfl⟩
  rw [hsegs, List.getLast?_append]
  rfl

theorem create_simple_summary_ne_nil (t : List Char) :
    MedSimple.create_simple_summary t ≠ [] :=
  getLast?_some_ne_nil (create_simple_summary_last t)

/-- Claim C2: the caller-facing entry point never propagates an exception
and every failure path yields a well-formed result with human-readable text
in all three fields.  The rule-based tier is total in this model (no step of
it can raise), its `summary` and `patientFriendly` are never empty and no
key finding is the empty string; the generative tier's `except` branch is
the `Except.error` case of the backend, and it is converted into the fixed
error record, whose three fields are non-empty for every exception text. -/
theorem c2_no_exception_wellformed :
    ∀ (s : List Char) (gen : List Char → Except (List Char) (List Char))
      (e : List Char),
      (MedSimple.summarize_report s).summary ≠ [] ∧
      (MedSimple.summarize_report s).patient_friendly ≠ [] ∧
      (∀ f ∈ (MedSimple.summarize_report s).key_findings, f ≠ []) ∧
      (MedAI.errorResult e).summary ≠ [] ∧
      (MedAI.errorResult e).patient_friendly ≠ [] ∧
      (MedAI.errorResult e).key_findings ≠ [] ∧
      (100 ≤ (MedAI.clean_text s).length →
        gen (MedAI.genInput (MedAI.clean_text s)) = Except.error e →
        MedAI.summarize_report gen s = MedAI.errorResult e) := by
  intro s gen e
  have hterms : MedSimple.mkSummarizer.medical_terms = MedSimple.medical_terms := rfl
  refine ⟨?_, ?_, ?_, ?_, ?_, ?_, ?_⟩
  · simp only [MedSimple.summarize_report, MedSimple.Summarizer.summarize_report]
    split
    · decide
    · exact create_simple_summary_ne_nil _
  · simp only [MedSimple.summarize_report, MedSimple.Summarizer.summarize_report]
    rw [apply_ite SummaryResult.patient_friendly]
    split
    · decide
    · simp only []
      rw [hterms]
      exact translateWith_ne_nil _ _ (create_simple_summary_ne_nil _)
        medical_terms_values_ne_nil
  · intro f hf
    simp only [MedSimple.summarize_report,
      MedSimple.Summarizer.summarize_report] at hf
    rw [apply_ite SummaryResult.key_findings] at hf
    split at hf
    · simp only [placeholderResult] at hf
      rcases List.mem_singleton.mp hf with rfl
      decide
    · simp only [] at hf
      rw [hterms] at hf
      obtain ⟨g, hg, rfl⟩ := List.mem_map.mp hf
      exact translateWith_ne_nil _ _ (extract_mem_ne_nil hg)
        medical_terms_values_ne_nil
  · intro h
    simp only [MedAI.errorResult] at h
    rw [List.append_eq_nil] at h
    exact (by decide : str ("Error generating summary: ") ≠ []) h.1
  · simp only [MedAI.errorResult]
    decide
  · simp only [MedAI.errorResult]
    decide
  · intro h100 hgen
    simp only [MedAI.summarize_report]
    rw [if_neg (by omega), hgen]

/-- Witness for C2: a 120-character report with a backend that always
raises is converted into the fixed error record, and the rule-based tier's
summary on the same input is non-empty. -/
theorem c2_witness :
    (MedSimple.summarize_report (List.replicate 120 'b')).summary ≠ [] ∧
    MedAI.summarize_report (fun _ => Except.error (str ("boom")))
      (List.replicate 120 'b') = MedAI.errorResult (str ("boom")) := by
  have h := c2_no_exception_wellformed (List.replicate 120 'b')
    (fun _ => Except.error (str ("boom"))) (str ("boom"))
  exact ⟨h.1, h.2.2.2.2.2.2 (by decide) rfl⟩

/-! ## The chest-X-ray end-to-end scenario (claim C7) -/

/-- Claim C7 counterexample: on the sample chest-X-ray report, no key
finding contains "lung infection" — the later table entry
infection → germ invasion rewrites it — and `patientFriendly` does contain
"cardiopulmonary" verbatim (the table has no entry for it and the
impression line lands in the Key results section). -/
theorem c7_counterexample :
    ((MedSimple.summarize_report sampleReport).key_findings.any
      (fun f => containsSub f (str ("lung infection")))) = false ∧
    containsSub (MedSimple.summarize_report sampleReport).patient_friendly
      (str ("cardiopulmonary")) = true := by
  exact ⟨by decide, by decide⟩

/-- Claim C7 (amended): on the sample chest-X-ray report `keyFindings` is
non-empty and its single element carries the translated form of "pneumonia"
as "lung germ invasion" (the entry infection → germ invasion rewrites
"lung infection"); `patientFriendly` contains no "dyspnea" and no
"pneumonia" verbatim, but it does contain "cardiopulmonary". -/
theorem c7_sample_scenario_amended :
    (MedSimple.summarize_report sampleReport).key_findings
      = [str ("bilateral lower lobe consolidation consistent with lung germ invasion")] ∧
    ((MedSimple.summarize_report sampleReport).key_findings.any
      (fun f => containsSub f (str ("lung germ invasion")))) = true ∧
    containsSub (MedSimple.summarize_report sampleReport).patient_friendly
      (str ("dyspnea")) = false ∧
    containsSub (MedSimple.summarize_report sampleReport).patient_friendly
      (str ("pneumonia")) = false := by
  refine ⟨by decide, by decide, by decide, by decide⟩

/-! ## Substitution overlap machinery (claim C6) -/

theorem drop_append_left {x : List Char} :
    ∀ {n : Nat} {a : List Char}, n ≤ a.length →
      (a ++ x).drop n = a.drop n ++ x := by
  intro n a
  induction a generalizing n with
  | nil =>
    intro h
    have : n = 0 := Nat.le_zero.mp (by simpa using h)
    subst this
    simp
  | cons c cs ih =>
    intro h
    cases n with
    | zero => simp
    | succ n' =>
      simp only [List.cons_append, List.drop_succ_cons]
      exact ih (by simpa using h)

theorem replaceAux_irrel (pat rep : List Char) :
    ∀ f1 (s : List Char) (f2 : Nat), s.length ≤ f1 → s.length ≤ f2 →
      replaceAux pat rep f1 s = replaceAux pat rep f2 s := by
  intro f1
  induction f1 with
  | zero =>
    intro s f2 h1 _
    have hs : s = [] := List.eq_nil_of_length_eq_zero (Nat.le_zero.mp h1)
    subst hs
    cases f2 <;> rfl
  | succ f ih =>
    intro s f2 h1 h2
    cases s with
    | nil => cases f2 <;> rfl
    | cons c cs =>
      cases f2 with
      | zero => simp at h2
      | succ f2' =>
        rw [replaceAux, replaceAux]
        simp only [List.length_cons] at h1 h2
        split
        · have hlen := len_drop_le (pat.length - 1) cs
          rw [ih (cs.drop (pat.length - 1)) f2' (by omega) (by omega)]
        · rw [ih cs f2' (by omega) (by omega)]

/-- The one-step unfolding of `replaceCI` on a non-empty text. -/
theorem replaceCI_cons (pat rep : List Char) (c : Char) (cs : List Char) :
    replaceCI pat rep (c :: cs) =
      if !pat.isEmpty && lstartsWithCI (c :: cs) pat then
        rep ++ replaceCI pat rep (cs.drop (pat.length - 1))
      else c :: replaceCI pat rep cs := by
  simp only [replaceCI, List.length_cons]
  rw [replaceAux]
  split
  · rw [replaceAux_irrel pat rep cs.length (cs.drop (pat.length - 1))
      (cs.drop (pat.length - 1)).length (len_drop_le _ _) le_rfl]
  · rfl

/-- Any case-insensitive occurrence of the pattern guarantees that one
replacement fires, so the replacement text occurs in the output. -/
theorem replaceCI_inserts {pat rep : List Char} (hpat : pat ≠ []) :
    ∀ s, containsCI s pat = true →
      ∃ a b, replaceCI pat rep s = a ++ rep ++ b := by
  intro s
  induction s with
  | nil =>
    intro h
    rw [containsCI] at h
    rw [List.isEmpty_iff] at h
    exact absurd h hpat
  | cons c cs ih =>
    intro h
    rw [containsCI, Bool.or_eq_true] at h
    by_cases hpre : lstartsWithCI (c :: cs) pat
    · rw [replaceCI_cons, if_pos (by simp [hpre, List.isEmpty_iff, hpat])]
      exact ⟨[], replaceCI pat rep (cs.drop (pat.length - 1)), by simp⟩
    · have hcs : containsCI cs pat = true := by
        rcases h with h | h
        · exact absurd h hpre
        · exact h
      obtain ⟨a, b, hab⟩ := ih hcs
      rw [replaceCI_cons, if_neg (by simp [hpre])]
      exact ⟨c :: a, b, by rw [hab]; rfl⟩

/-- No occurrence of the (lower-cased) pattern `k` can overlap an
occurrence of the literal text `t`: no nonempty suffix of `k` begins `t`,
no nonempty prefix of `k` ends `t`, and neither is an infix of the other
(all after ASCII lower-casing). -/
def NoOverlap (k t : List Char) : Prop :=
  (∀ e f, lowerL k = e ++ f → f ≠ [] → ∀ g, lowerL t ≠ f ++ g) ∧
  (∀ e f, lowerL k = e ++ f → e ≠ [] → ∀ g, lowerL t ≠ g ++ e) ∧
  (∀ a b, lowerL t ≠ a ++ lowerL k ++ b) ∧
  (∀ a b, lowerL k ≠ a ++ lowerL t ++ b)

/-- Decidable check for `NoOverlap`. -/
def noOverlapB (k t : List Char) : Bool :=
  (((lowerL k).tails).all fun f => f.isEmpty || !(lstartsWithL (lowerL t) f)) &&
  (((lowerL k).inits).all fun e =>
    e.isEmpty || !(lstartsWithL (lowerL t).reverse e.reverse)) &&
  !(containsSub (lowerL t) (lowerL k)) && !(containsSub (lowerL k) (lowerL t))

theorem noOverlapB_spec {k t : List Char} (h : noOverlapB k t = true) :
    NoOverlap k t := by
  rw [noOverlapB] at h
  simp only [Bool.and_eq_true, Bool.not_eq_true'] at h
  obtain ⟨⟨⟨h1, h2⟩, h3⟩, h4⟩ := h
  rw [List.all_eq_true] at h1 h2
  refine ⟨?_, ?_, ?_, ?_⟩
  · intro e f hk hf g hteq
    have hmem : f ∈ (lowerL k).tails := (List.mem_tails f (lowerL k)).mpr ⟨e, hk.symm⟩
    have := h1 f hmem
    rw [Bool.or_eq_true] at this
    rcases this with hemp | hns
    · exact hf (List.isEmpty_iff.mp hemp)
    · rw [Bool.not_eq_true'] at hns
      have : lstartsWithL (lowerL t) f = true := (lstartsWithL_iff _ _).mpr ⟨g, hteq⟩
      rw [this] at hns
      cases hns
  · intro e f hk he g hteq
    have hmem : e ∈ (lowerL k).inits := (List.mem_inits e (lowerL k)).mpr ⟨f, hk.symm⟩
    have := h2 e hmem
    rw [Bool.or_eq_true] at this
    rcases this with hemp | hns
    · exact he (List.isEmpty_iff.mp hemp)
    · rw [Bool.not_eq_true'] at hns
      have : lstartsWithL (lowerL t).reverse e.reverse = true := by
        refine (lstartsWithL_iff _ _).mpr ⟨g.reverse, ?_⟩
        rw [hteq, List.reverse_append]
      rw [this] at hns
      cases hns
  · intro a b hteq
    have : containsSub (lowerL t) (lowerL k) = true :=
      (containsSub_iff _ _).mpr ⟨a, b, hteq⟩
    rw [this] at h3
    cases h3
  · intro a b hkeq
    have : containsSub (lowerL k) (lowerL t) = true :=
      (containsSub_iff _ _).mpr ⟨a, b, hkeq⟩
    rw [this] at h4
    cases h4

theorem clash_inside {pat t : List Char} (hov : NoOverlap pat t) :
    ∀ (u v b : List Char), t = u ++ v → v ≠ [] →
      lstartsWithCI (v ++ b) pat = true → False := by
  intro u v b htv hv hpre
  obtain ⟨rest, hrest⟩ := (lstartsWithCI_iff _ _).mp hpre
  rw [lowerL_append] at hrest
  rcases List.append_eq_append_iff.mp hrest with ⟨e, he1, he2⟩ | ⟨e, he1, he2⟩
  · -- the match begins with all of v: v is a nonempty prefix of the pattern
    -- and a suffix of t
    exact hov.2.1 (lowerL v) e he1 (by simp [lowerL, hv]) (lowerL u)
      (by rw [htv, lowerL_append])
  · -- the pattern fits inside v: it is an infix of t
    exact hov.2.2.1 (lowerL u) e
      (by rw [htv, lowerL_append, he1, List.append_assoc])

theorem clash_before {pat t : List Char} (hov : NoOverlap pat t) :
    ∀ (a b : List Char), lstartsWithCI (a ++ t ++ b) pat = true →
      a.length < pat.length → False := by
  intro a b hpre hlen
  obtain ⟨rest, hrest⟩ := (lstartsWithCI_iff _ _).mp hpre
  rw [lowerL_append, lowerL_append, List.append_assoc] at hrest
  rcases List.append_eq_append_iff.mp hrest with ⟨e, he1, he2⟩ | ⟨e, he1, he2⟩
  · have hene : e ≠ [] := by
      intro h0
      rw [h0, List.append_nil] at he1
      have := congrArg List.length he1
      simp only [lowerL, List.length_map] at this
      omega
    rcases List.append_eq_append_iff.mp he2 with ⟨f, hf1, hf2⟩ | ⟨f, hf1, hf2⟩
    · -- the whole of t sits inside the pattern
      exact hov.2.2.2 (lowerL a) f (by rw [he1, hf1, List.append_assoc])
    · -- a nonempty suffix of the pattern begins t
      exact hov.1 (lowerL a) e he1 hene f hf1
  · have := congrArg List.length he1
    simp only [lowerL, List.length_map, List.length_append] at this
    omega

/-- When no match can begin inside the prefix `t`, the scanner copies `t`
verbatim and continues on `b`. -/
theorem replaceCI_prefix_keep (pat rep : List Char) :
    ∀ (t b : List Char),
      (∀ u v, t = u ++ v → v ≠ [] → lstartsWithCI (v ++ b) pat = false) →
      replaceCI pat rep (t ++ b) = t ++ replaceCI pat rep b := by
  intro t
  induction t with
  | nil =>
    intro b _
    simp
  | cons x t1 ih =>
    intro b hno
    have h0 : lstartsWithCI (x :: (t1 ++ b)) pat = false := by
      have := hno [] (x :: t1) rfl (by simp)
      simpa using this
    rw [List.cons_append, replaceCI_cons, h0]
    rw [if_neg (by simp)]
    rw [ih b (fun u v huv hv => hno (x :: u) v (by rw [huv]; rfl) hv)]
    simp

/-- Core survival lemma: a literal occurrence of `t` survives one
case-insensitive substitution whose pattern cannot overlap `t`. -/
theorem replaceCI_keeps {pat rep t : List Char} (hpat : pat ≠ []) (ht : t ≠ [])
    (hov : NoOverlap pat t) :
    ∀ (s a b : List Char), s = a ++ t ++ b →
      ∃ e f, replaceCI pat rep s = e ++ t ++ f := by
  suffices H : ∀ (n : Nat) (s a b : List Char), s.length = n → s = a ++ t ++ b →
      ∃ e f, replaceCI pat rep s = e ++ t ++ f by
    intro s a b h
    exact H s.length s a b rfl h
  intro n
  induction n using Nat.strong_induction_on with
  | _ n ih =>
    intro s a b hn hs
    cases s with
    | nil =>
      exfalso
      have hlen := congrArg List.length hs
      simp only [List.length_nil, List.length_append] at hlen
      have ht1 : 0 < t.length := List.length_pos.mpr ht
      omega
    | cons c cs =>
      subst hn
      by_cases hm : lstartsWithCI (c :: cs) pat = true
      · have hge : pat.length ≤ a.length := by
          by_contra hlt
          push_neg at hlt
          exact clash_before hov a b (by rw [← hs]; exact hm) hlt
        obtain ⟨p0, ps, rfl⟩ : ∃ p0 ps, pat = p0 :: ps := by
          cases pat with
          | nil => exact absurd rfl hpat
          | cons p0 ps => exact ⟨p0, ps, rfl⟩
        have hdropcs : (c :: cs).drop (p0 :: ps).length = cs.drop ps.length := by
          simp [List.drop_succ_cons]
        have hdrop : cs.drop ((p0 :: ps).length - 1)
            = a.drop (p0 :: ps).length ++ t ++ b := by
          have h1 : (c :: cs).drop (p0 :: ps).length
              = a.drop (p0 :: ps).length ++ (t ++ b) := by
            rw [hs, List.append_assoc]
            exact drop_append_left hge
          rw [hdropcs] at h1
          simp only [List.length_cons] at h1
          simp only [List.length_cons, Nat.add_sub_cancel]
          rw [h1]
          simp [List.append_assoc]
        have hshort : (cs.drop ((p0 :: ps).length - 1)).length < (c :: cs).length := by
          have hle := len_drop_le ((p0 :: ps).length - 1) cs
          simp only [List.length_cons, Nat.add_sub_cancel] at hle ⊢
          omega
        obtain ⟨e, f, hef⟩ := ih (cs.drop ((p0 :: ps).length - 1)).length hshort
          (cs.drop ((p0 :: ps).length - 1)) (a.drop (p0 :: ps).length) b rfl hdrop
        refine ⟨rep ++ e, f, ?_⟩
        rw [replaceCI_cons, if_pos (by simp [hm, List.isEmpty_iff])]
        rw [hef]
        simp [List.append_assoc]
      · cases a with
        | nil =>
          simp only [List.nil_append] at hs
          have hno : ∀ u v, t = u ++ v → v ≠ [] →
              lstartsWithCI (v ++ b) pat = false := by
            intro u v huv hv
            cases hq : lstartsWithCI (v ++ b) pat with
            | false => rfl
            | true => exact (clash_inside hov u v b huv hv hq).elim
          refine ⟨[], replaceCI pat rep b, ?_⟩
          rw [hs, replaceCI_prefix_keep pat rep t b hno]
          simp
        | cons a0 a1 =>
          simp only [List.cons_append] at hs
          injection hs with h1 h2
          obtain ⟨e, f, hef⟩ := ih cs.length (by simp) cs a1 b rfl h2
          refine ⟨c :: e, f, ?_⟩
          rw [replaceCI_cons, if_neg (by simp [hm]), hef]
          simp

theorem translateWith_cons (k v : List Char)
    (es : List (List Char × List Char)) (s : List Char) :
    translateWith ((k, v) :: es) s = translateWith es (replaceCI k v s) := rfl

/-- A literal occurrence of `t` survives a whole table of substitutions
none of whose patterns can overlap `t`. -/
theorem translateWith_keeps {t : List Char} (ht : t ≠ []) :
    ∀ (table : List (List Char × List Char)) (s : List Char),
      (∀ p ∈ table, p.1 ≠ [] ∧ NoOverlap p.1 t) →
      (∃ a b, s = a ++ t ++ b) →
      ∃ a b, translateWith table s = a ++ t ++ b := by
  intro table
  induction table with
  | nil =>
    intro s _ h
    simpa [translateWith] using h
  | cons p ps ih =>
    rintro s hcond ⟨a, b, hs⟩
    obtain ⟨hp1, hp2⟩ := hcond p (List.mem_cons_self p ps)
    obtain ⟨k, v⟩ := p
    rw [translateWith_cons]
    exact ih _ (fun q hq => hcond q (List.mem_cons_of_mem (k, v) hq))
      (replaceCI_keeps hp1 ht hp2 s a b hs)


/-- Transfer lemma: a nonempty suffix-slice `q` of the pattern that
case-insensitively begins the scanner's output also begins the input,
when the replacement text cannot overlap the pattern
(`NoOverlap rep pat`). -/
theorem replaceCI_prefix_transfer {pat rep : List Char} (hrep : rep ≠ [])
    (hcond : NoOverlap rep pat) :
    ∀ (s q : List Char), q ≠ [] → (∃ e, lowerL pat = e ++ lowerL q) →
      lstartsWithCI (replaceCI pat rep s) q = true →
      lstartsWithCI s q = true := by
  intro s
  induction s with
  | nil =>
    intro q hq _ hpre
    cases q with
    | nil => exact absurd rfl hq
    | cons q0 q1 => simp [replaceCI, replaceAux, lstartsWithCI] at hpre
  | cons c cs ih =>
    intro q hq hsuf hpre
    by_cases hm : (!pat.isEmpty && lstartsWithCI (c :: cs) pat) = true
    · rw [replaceCI_cons, if_pos hm] at hpre
      exfalso
      obtain ⟨rest, hr⟩ := (lstartsWithCI_iff _ _).mp hpre
      rw [lowerL_append] at hr
      obtain ⟨E, hE⟩ := hsuf
      rcases List.append_eq_append_iff.mp hr with ⟨e, he1, he2⟩ | ⟨e, he1, he2⟩
      · -- the replacement is a prefix of q, hence an infix of the pattern
        exact hcond.2.2.1 E e (by rw [hE, he1, List.append_assoc])
      · -- q is a nonempty prefix of the replacement and a suffix of the
        -- pattern
        exact hcond.2.1 (lowerL q) e he1 (by simp [lowerL, hq]) E hE
    · rw [replaceCI_cons, if_neg (by simpa using hm)] at hpre
      cases q with
      | nil => exact absurd rfl hq
      | cons q0 q1 =>
        rw [lstartsWithCI] at hpre ⊢
        simp only [Bool.and_eq_true, decide_eq_true_eq] at hpre ⊢
        refine ⟨hpre.1, ?_⟩
        cases hq1 : q1 with
        | nil => simp [lstartsWithCI]
        | cons r0 r1 =>
          rw [← hq1]
          refine ih q1 (by simp [hq1]) ?_ hpre.2
          obtain ⟨E, hE⟩ := hsuf
          refine ⟨E ++ [asciiLower q0], ?_⟩
          rw [hE]
          simp [lowerL, List.append_assoc]

/-- Absence lemma: after one substitution pass, no case-insensitive
occurrence of the pattern remains, when the replacement cannot overlap
the pattern. -/
theorem replaceCI_no_residual {pat rep : List Char} (hpat : pat ≠ [])
    (hrep : rep ≠ []) (hcond : NoOverlap rep pat) :
    ∀ s, containsCI (replaceCI pat rep s) pat = false := by
  suffices H : ∀ (n : Nat) (s : List Char), s.length = n →
      containsCI (replaceCI pat rep s) pat = false by
    intro s
    exact H s.length s rfl
  intro n
  induction n using Nat.strong_induction_on with
  | _ n ih =>
    intro s hn
    cases s with
    | nil =>
      simp only [replaceCI, replaceAux, List.length_nil]
      rw [containsCI]
      simp [List.isEmpty_iff, hpat]
    | cons c cs =>
      subst hn
      by_cases hm : lstartsWithCI (c :: cs) pat = true
      · rw [replaceCI_cons, if_pos (by simp [hm, List.isEmpty_iff, hpat])]
        set X := replaceCI pat rep (cs.drop (pat.length - 1)) with hX
        have hXres : containsCI X pat = false := by
          rw [hX]
          refine ih (cs.drop (pat.length - 1)).length ?_ _ rfl
          have := len_drop_le (pat.length - 1) cs
          simp only [List.length_cons]
          omega
        cases hout : containsCI (rep ++ X) pat with
        | false => rfl
        | true =>
          exfalso
          obtain ⟨a, b, hab⟩ := (containsCI_iff _ _).mp hout
          rw [lowerL_append, List.append_assoc] at hab
          rcases List.append_eq_append_iff.mp hab with ⟨e, he1, he2⟩ | ⟨e, he1, he2⟩
          · -- the occurrence lies inside the recursive output
            have : containsCI X pat = true := by
              refine (containsCI_iff _ _).mpr ⟨e, b, ?_⟩
              rw [he2, List.append_assoc]
            rw [this] at hXres
            cases hXres
          · -- he1 : lowerL rep = a ++ e, he2 : lowerL pat ++ b = e ++ lowerL X
            rcases List.append_eq_append_iff.mp he2 with ⟨f, hf1, hf2⟩ | ⟨f, hf1, hf2⟩
            · -- the pattern is an infix of the replacement
              exact hcond.2.2.2 a f (by rw [he1, hf1, List.append_assoc])
            · cases e with
              | nil =>
                -- the occurrence starts exactly at the seam: it is an
                -- occurrence inside the recursive output
                simp only [List.nil_append] at hf1
                have : containsCI X pat = true := by
                  refine (containsCI_iff _ _).mpr ⟨[], b, ?_⟩
                  rw [hf2, hf1]
                  simp
                rw [this] at hXres
                cases hXres
              | cons e0 e1 =>
                -- a nonempty suffix of the replacement begins the pattern
                exact hcond.1 a (e0 :: e1) he1 (by simp) f hf1
      · rw [replaceCI_cons, if_neg (by simp [hm])]
        have hcsres : containsCI (replaceCI pat rep cs) pat = false := by
          refine ih cs.length (by simp) cs rfl
        rw [containsCI]
        cases hfirst : lstartsWithCI (c :: replaceCI pat rep cs) pat with
        | false => simp [hcsres]
        | true =>
          exfalso
          obtain ⟨p0, p1, rfl⟩ : ∃ p0 p1, pat = p0 :: p1 := by
            cases pat with
            | nil => exact absurd rfl hpat
            | cons p0 p1 => exact ⟨p0, p1, rfl⟩
          rw [lstartsWithCI] at hfirst
          simp only [Bool.and_eq_true, decide_eq_true_eq] at hfirst
          have hp1 : lstartsWithCI cs p1 = true := by
            cases hp1e : p1 with
            | nil => simp [lstartsWithCI]
            | cons r0 r1 =>
              rw [← hp1e]
              exact replaceCI_prefix_transfer hrep hcond cs p1
                (by simp [hp1e]) ⟨[asciiLower p0], by simp [lowerL]⟩ hfirst.2
          have : lstartsWithCI (c :: cs) (p0 :: p1) = true := by
            rw [lstartsWithCI]
            simp only [Bool.and_eq_true, decide_eq_true_eq]
            exact ⟨hfirst.1, hp1⟩
          rw [this] at hm
          exact hm rfl

/-- Claim C6 (counterexample): the full translator violates both halves of
the claim. On `exRecreate` the later entry `benign -> non-cancerous`
rewrites `myocardial infarctiobenign` into text that again contains
`myocardial infarction`, so the phrase survives in the output; on
`exDestroy` the later entry `diarrhea -> loose stools` consumes the
leading `hea` of the freshly inserted `heart attack`, so the output does
not contain `heart attack` at all. -/
theorem c6_counterexample :
    containsCI exRecreate (str ("myocardial infarction")) = true ∧
    containsSub (MedSimple.translate_medical_jargon exRecreate)
      (str ("myocardial infarction")) = true ∧
    containsCI exDestroy (str ("myocardial infarction")) = true ∧
    containsCI (MedSimple.translate_medical_jargon exDestroy)
      (str ("heart attack")) = false := by
  refine ⟨by decide, by decide, by decide, by decide⟩

/-- Claim C6 (amended): the first table entry alone has the claimed
property. For every input containing `myocardial infarction` in any
letter case, the substitution of the first entry of `medical_terms`
(`myocardial infarction -> heart attack`) produces text containing
`heart attack` and containing no case-insensitive occurrence of
`myocardial infarction`; the claim as stated about the whole translator
fails because later entries can destroy the inserted replacement or
recreate the pattern (see the counterexample). -/
theorem c6_first_substitution_two_sided (s : List Char)
    (h : containsCI s (str ("myocardial infarction")) = true) :
    MedSimple.medical_terms.head? =
      some (str ("myocardial infarction"), str ("heart attack")) ∧
    containsSub
      (replaceCI (str ("myocardial infarction")) (str ("heart attack")) s)
      (str ("heart attack")) = true ∧
    containsCI
      (replaceCI (str ("myocardial infarction")) (str ("heart attack")) s)
      (str ("myocardial infarction")) = false := by
  refine ⟨rfl, ?_, ?_⟩
  · obtain ⟨a, b, hab⟩ :=
      @replaceCI_inserts (str ("myocardial infarction"))
        (str ("heart attack")) (by decide) s h
    exact (containsSub_iff _ _).mpr ⟨a, b, hab⟩
  · exact replaceCI_no_residual (by decide) (by decide)
      (noOverlapB_spec (by decide)) s

/-- Concrete instantiation of the amended C6 theorem. -/
theorem c6_witness :
    containsCI (str ("history of Myocardial Infarction noted"))
      (str ("myocardial infarction")) = true ∧
    containsSub
      (replaceCI (str ("myocardial infarction")) (str ("heart attack"))
        (str ("history of Myocardial Infarction noted")))
      (str ("heart attack")) = true ∧
    containsCI
      (replaceCI (str ("myocardial infarction")) (str ("heart attack"))
        (str ("history of Myocardial Infarction noted")))
      (str ("myocardial infarction")) = false :=
  ⟨by decide,
   (c6_first_substitution_two_sided _ (by decide)).2.1,
   (c6_first_substitution_two_sided _ (by decide)).2.2⟩
